import Mathlib

/-
Verification of the nRF5 entropy driver (drivers/entropy/entropy_nrf5.c).

The driver keeps two ring pools of hardware random bytes (an ISR tier and a
thread tier), filled one byte per RNG interrupt and drained by three consumer
entry points.  The definitions below are a shallow embedding of the C code:
`u8_t` fields are natural numbers kept below 256 (explicit `% 256` marks every
assignment whose C right-hand side can exceed 255; C subtractions that are
guarded non-negative coincide with truncated `Nat` subtraction), the flexible
byte array is a `List Nat`, and hardware task triggers (START/STOP) and
semaphore signals are returned as booleans.
-/

/-- Ring pool header of entropy_nrf5.c (struct rng_pool, lines 66-72): `count`,
`threshold`, `first`, `last` are `u8_t` fields, and `rand` models the trailing
byte array of `count` slots. -/
structure RngPool where
  count : Nat
  threshold : Nat
  first : Nat
  last : Nat
  rand : List Nat
deriving Repr, DecidableEq

/-- Pool initialization (rng_pool_init, lines 251-256): `count := len`, the
given `threshold`, `first = last = 0`.  The backing storage is a static array,
hence zero-initialized. -/
def rng_pool_init (len threshold : Nat) : RngPool :=
  ⟨len, threshold, 0, 0, List.replicate len 0⟩

/-- One destination-backward copy loop of rng_pool_get, i.e.
`while (avail--) *(--d) = *s++;` with `d` one past the target region: copies
`n` bytes from `src` starting at index `s` forward, into `buf` walking backward
from index `d` exclusive, so `buf` at `d-1-i` receives `src` at `s+i` for each
`i < n`. -/
def copy_back (src : List Nat) (buf : List Nat) (s d : Nat) : Nat → List Nat
  | 0 => buf
  | n + 1 => copy_back src (buf.set (d - 1) (src.getD s 0)) (s + 1) (d - 1) n

/-- Translation of rng_pool_get (lines 111-186).  Returns the updated pool, the
shortfall (`return octets;`, the number of requested bytes NOT supplied), the
updated destination buffer, and whether `NRF_RNG_TASK_START` was triggered
(lines 181-183). -/
def rng_pool_get (rng : RngPool) (octets : Nat) (rand : List Nat) :
    RngPool × Nat × List Nat × Bool :=
  let first := rng.first
  let last := rng.last
  let step :=
    if first ≤ last then
      -- copy octets from contiguous memory (lines 123-140)
      let avail := last - first
      let ra := if octets < avail then ((avail - octets) % 256, octets) else (0, avail)
      let remaining := ra.1
      let avail1 := ra.2
      let first1 := (first + avail1) % 256
      let octets1 := octets - avail1
      let rand1 := copy_back rng.rand rand first octets avail1
      ({ rng with first := first1 }, octets1, rand1, remaining)
    else
      -- copy octets from split halves, up to the end of the array (lines 142-157)
      let avail := rng.count - first
      let rf := if octets < avail then ((avail + last - octets) % 256, octets, (first + octets) % 256)
                else (last, avail, 0)
      let remaining := rf.1
      let avail1 := rf.2.1
      let first1 := rf.2.2
      let octets1 := octets - avail1
      let rand1 := copy_back rng.rand rand first octets avail1
      -- copy from the beginning of the array, up to the ring buffer last index
      -- (lines 160-176); the destination pointer continues where the first
      -- segment stopped, i.e. octets1 past the start of the target region
      if octets1 ≠ 0 ∧ last ≠ 0 then
        let rl := if octets1 < last then ((last - octets1) % 256, octets1) else (0, last)
        let remaining2 := rl.1
        let last2 := rl.2
        let first2 := last2
        let octets2 := octets1 - last2
        let rand2 := copy_back rng.rand rand1 0 octets1 last2
        ({ rng with first := first2 }, octets2, rand2, remaining2)
      else
        ({ rng with first := first1 }, octets1, rand1, remaining)
  (step.1, step.2.1, step.2.2.1, decide (step.2.2.2 < rng.threshold))

/-- Return codes of rng_pool_put: `-ENOBUFS` (pool full, nothing stored),
`-EBUSY` (room remains), `0` (stored, and the pool is now full). -/
inductive PutRet where
  | enobufs
  | ebusy
  | ok
deriving Repr, DecidableEq

/-- Tail-advance computation used twice by rng_pool_put (lines 197-200 and
216-219): `last = idx + 1; if (last == rng->count) last = 0;` where the
assignment is to a `u8_t`. -/
def rng_pool_next (p : RngPool) (idx : Nat) : Nat :=
  let l := (idx + 1) % 256
  if l = p.count then 0 else l

/-- Translation of rng_pool_put (lines 189-226).  The NULL-pointer guard of
line 193 is dropped: pools are values here, and both call sites pass valid
pools. -/
def rng_pool_put (rng : RngPool) (store : Bool) (byte : Nat) : RngPool × PutRet :=
  if rng_pool_next rng rng.last = rng.first then (rng, PutRet.enobufs)
  else if !store then (rng, PutRet.ebusy)
  else
    let rng1 : RngPool := { rng with rand := rng.rand.set rng.last byte,
                                     last := rng_pool_next rng rng.last }
    if rng_pool_next rng1 rng1.last = rng1.first then (rng1, PutRet.ok)
    else (rng1, PutRet.ebusy)

/-- Translation of the interrupt handler (lines 228-249).  Input: the sampled
byte (`none` when random_byte_get reported `-EAGAIN`, line 235), the ISR-tier
pool and the thread-tier pool.  Output: both updated pools, whether
`k_sem_give(&dev_data->sem_sync)` ran (the producer/consumer wake, line 243),
and whether `NRF_RNG_TASK_STOP` was triggered (lines 246-248). -/
def isr (byte : Option Nat) (isrPool thrPool : RngPool) :
    RngPool × RngPool × Bool × Bool :=
  match byte with
  | none => (isrPool, thrPool, false, false)
  | some b =>
    let pr := rng_pool_put isrPool true b
    if pr.2 ≠ PutRet.ebusy then
      let pr2 := rng_pool_put thrPool (decide (pr.2 = PutRet.enobufs)) b
      (pr.1, pr2.1, true, decide (pr2.2 ≠ PutRet.ebusy))
    else
      (pr.1, thrPool, false, false)

/-- Translation of entropy_nrf5_get_entropy_isr (lines 287-295) in the case
`!(flags & ENTROPY_BUSYWAIT)`: the function directly returns
`rng_pool_get(isr_pool, len, buf)`, where the `u16_t len` argument is converted
to the `u8_t octets` parameter, i.e. truncated mod 256.  (The busy-wait branch,
lines 297-331, polls the hardware VALRDY flag directly and bypasses both
pools.) -/
def entropy_nrf5_get_entropy_isr (isrPool : RngPool) (buf : List Nat) (len : Nat) :
    RngPool × Nat × List Nat × Bool :=
  rng_pool_get isrPool (len % 256) buf

/-- Model of `k_sem_take(&dev_data->sem_sync, K_FOREVER)` (line 279) inside the
blocking path: interrupts keep firing, each feeding one hardware byte from
`supply` through `isr`, until an invocation gives the sync semaphore.  `none`
when `fuel` or `supply` run out; the C code would block forever if the hardware
stopped producing. -/
def wait_for_wake : Nat → List Nat → RngPool → RngPool →
    Option (List Nat × RngPool × RngPool)
  | 0, _, _, _ => none
  | _ + 1, [], _, _ => none
  | fuel + 1, b :: rest, isrPool, thrPool =>
    let r := isr (some b) isrPool thrPool
    if r.2.2.1 then some (rest, r.1, r.2.1)
    else wait_for_wake fuel rest r.1 r.2.1

/-- Inner loop of entropy_nrf5_get_entropy (lines 272-281): repeatedly
`len8 = rng_pool_get(thr_pool, len8, buf)` and, while a shortfall remains,
sleep until the next wake.  The `sem_lock` critical section around the get
serializes thread-context callers; with one caller it has no effect.  Note the
C code passes the same `buf` pointer to every retry and returns it unchanged to
the outer loop. -/
def get_entropy_chunk : Nat → Nat → List Nat → RngPool → RngPool → List Nat →
    Option (List Nat × RngPool × RngPool × List Nat)
  | 0, _, _, _, _, _ => none
  | fuel + 1, len8, supply, isrPool, thrPool, buf =>
    if len8 = 0 then some (supply, isrPool, thrPool, buf)
    else
      let g := rng_pool_get thrPool len8 buf
      if g.2.1 = 0 then some (supply, isrPool, g.1, g.2.2.1)
      else
        match wait_for_wake (fuel + 1) supply isrPool g.1 with
        | none => none
        | some s1 => get_entropy_chunk fuel g.2.1 s1.1 s1.2.1 s1.2.2 g.2.2.1

/-- Translation of entropy_nrf5_get_entropy (lines 258-285): chunks the `u16_t`
length into pieces `len8 = min(len, UINT8_MAX)` and runs the inner loop on
each.  Faithfully to lines 272-281, `buf` is handed unchanged from one chunk to
the next: the C code never advances the buffer pointer.  A `some` result means
the C function returned 0 (success); `none` is fuel exhaustion of the model. -/
def entropy_nrf5_get_entropy : Nat → Nat → List Nat → RngPool → RngPool → List Nat →
    Option (List Nat × RngPool × RngPool × List Nat)
  | 0, _, _, _, _, _ => none
  | fuel + 1, len, supply, isrPool, thrPool, buf =>
    if len = 0 then some (supply, isrPool, thrPool, buf)
    else
      let len8 := if 255 < len then 255 else len
      match get_entropy_chunk (fuel + 1) len8 supply isrPool thrPool buf with
      | none => none
      | some s1 =>
        entropy_nrf5_get_entropy fuel (len - len8) s1.1 s1.2.1 s1.2.2.1 s1.2.2.2

/-- Bytes currently stored in a pool, oldest first: the slice from `first`
(inclusive) to `last` (exclusive) in ring order. -/
def contents (p : RngPool) : List Nat :=
  if p.first ≤ p.last then (p.rand.drop p.first).take (p.last - p.first)
  else p.rand.drop p.first ++ p.rand.take p.last

/-- Occupancy: the number of unread bytes currently stored in a pool. -/
def occ (p : RngPool) : Nat := (contents p).length

/-- Well-formedness of a pool: indices in range, `count` a `u8_t` value with
room for at least one usable byte, backing array of exactly `count` slots.
This holds for both pools of the driver (capacities CONFIG_..._BUF_LEN + 1)
and is preserved by every operation. -/
def wf (p : RngPool) : Prop :=
  2 ≤ p.count ∧ p.count ≤ 255 ∧ p.first < p.count ∧ p.last < p.count ∧
    p.rand.length = p.count

instance wf_decidable (p : RngPool) : Decidable (wf p) :=
  decidable_of_iff
    (2 ≤ p.count ∧ p.count ≤ 255 ∧ p.first < p.count ∧ p.last < p.count ∧
      p.rand.length = p.count) Iff.rfl

/-- Iterated `rng_pool_put` with `store = true`, as performed by successive
interrupt-handler invocations feeding one tier. -/
def rng_pool_put_list (p : RngPool) (bs : List Nat) : RngPool :=
  bs.foldl (fun q b => (rng_pool_put q true b).1) p

/-- A consumer-facing pool operation: one `rng_pool_put` call (by the interrupt
handler) or one `rng_pool_get` call (by a consumer entry point).  The byte and
octet arguments cross `u8_t` parameter boundaries, hence the truncation in
`applyOp`. -/
inductive Op where
  | put (store : Bool) (byte : Nat)
  | get (octets : Nat) (buf : List Nat)

/-- Effect of one operation on a pool. -/
def applyOp (p : RngPool) : Op → RngPool
  | Op.put store byte => (rng_pool_put p store (byte % 256)).1
  | Op.get octets buf => (rng_pool_get p (octets % 256) buf).1

/-- Effect of a sequence of operations on a pool. -/
def applyOps (p : RngPool) (ops : List Op) : RngPool := ops.foldl applyOp p

/-! Basic lemmas about the copy loop. -/

theorem copy_back_length (src : List Nat) (n : Nat) :
    ∀ (buf : List Nat) (s d : Nat), (copy_back src buf s d n).length = buf.length := by
  induction n with
  | zero => intro buf s d; rfl
  | succ n ih => intro buf s d; rw [copy_back, ih]; exact List.length_set ..

theorem copy_back_getElem? (src : List Nat) (n : Nat) :
    ∀ (buf : List Nat) (s d : Nat), n ≤ d → d ≤ buf.length → s + n ≤ src.length →
      ∀ j : Nat, (copy_back src buf s d n)[j]? =
        if d - n ≤ j ∧ j < d then src[s + (d - 1 - j)]? else buf[j]? := by
  induction n with
  | zero =>
    intro buf s d _ _ _ j
    rw [copy_back, if_neg]
    omega
  | succ n ih =>
    intro buf s d hd hdb hs j
    rw [copy_back, ih _ _ _ (by omega) (by rw [List.length_set]; omega) (by omega)]
    by_cases h1 : (d - 1) - n ≤ j ∧ j < d - 1
    · rw [if_pos h1, if_pos (by omega)]
      have : s + 1 + (d - 1 - 1 - j) = s + (d - 1 - j) := by omega
      rw [this]
    · rw [if_neg h1]
      by_cases h2 : j = d - 1
      · subst h2
        rw [if_pos (by omega), List.getElem?_set, if_pos (by omega),
          if_pos (by omega)]
        have hsrc : s < src.length := by omega
        have h3 : s + (d - 1 - (d - 1)) = s := by omega
        rw [h3, List.getElem?_eq_getElem hsrc]
        simp [List.getD, List.getElem?_eq_getElem hsrc]
      · rw [if_neg (by omega), List.getElem?_set, if_neg (by omega)]

/-! Occupancy and index relations. -/

theorem occ_spec (p : RngPool) (hwf : wf p) :
    occ p = if p.first ≤ p.last then p.last - p.first
            else p.count - p.first + p.last := by
  obtain ⟨h2, h255, hf, hl, hr⟩ := hwf
  unfold occ contents
  by_cases h : p.first ≤ p.last
  · rw [if_pos h, if_pos h, List.length_take, List.length_drop, hr]
    omega
  · rw [if_neg h, if_neg h, List.length_append, List.length_drop,
      List.length_take, hr]
    omega

theorem occ_le (p : RngPool) (hwf : wf p) : occ p ≤ p.count - 1 := by
  have h := occ_spec p hwf
  obtain ⟨h2, h255, hf, hl, hr⟩ := hwf
  rw [h]; split <;> omega

theorem occ_eq_zero_iff (p : RngPool) (hwf : wf p) :
    occ p = 0 ↔ p.first = p.last := by
  have h := occ_spec p hwf
  obtain ⟨h2, h255, hf, hl, hr⟩ := hwf
  rw [h]; split <;> omega

theorem succ_mod_ite (a n : Nat) (h : a < n) :
    (a + 1) % n = if a + 1 = n then 0 else a + 1 := by
  split
  · rename_i hc; rw [hc, Nat.mod_self]
  · exact Nat.mod_eq_of_lt (by omega)

theorem occ_eq_full_iff (p : RngPool) (hwf : wf p) :
    occ p = p.count - 1 ↔ (p.last + 1) % p.count = p.first := by
  have h := occ_spec p hwf
  obtain ⟨h2, h255, hf, hl, hr⟩ := hwf
  have hmod : (p.last + 1) % p.count = if p.last + 1 = p.count then 0 else p.last + 1 := by
    split
    · rename_i hc; rw [hc, Nat.mod_self]
    · exact Nat.mod_eq_of_lt (by omega)
  rw [h, hmod]
  split <;> split <;> omega

theorem rng_pool_next_eq (p : RngPool) (hcnt : p.count ≤ 255) (idx : Nat)
    (hidx : idx < p.count) : rng_pool_next p idx = (idx + 1) % p.count := by
  unfold rng_pool_next
  have h1 : (idx + 1) % 256 = idx + 1 := Nat.mod_eq_of_lt (by omega)
  have hmod : (idx + 1) % p.count = if idx + 1 = p.count then 0 else idx + 1 := by
    split
    · rename_i hc; rw [hc, Nat.mod_self]
    · exact Nat.mod_eq_of_lt (by omega)
  simp only [h1, hmod]

theorem contents_length (p : RngPool) : (contents p).length = occ p := rfl

theorem contents_getElem? (p : RngPool) (hwf : wf p) (i : Nat) :
    (contents p)[i]? = if i < occ p then p.rand[(p.first + i) % p.count]? else none := by
  have hocc := occ_spec p hwf
  obtain ⟨h2, h255, hf, hl, hr⟩ := hwf
  by_cases h : p.first ≤ p.last
  · rw [hocc, if_pos h]
    unfold contents
    rw [if_pos h, List.getElem?_take]
    by_cases hi : i < p.last - p.first
    · rw [if_pos hi, if_pos hi, List.getElem?_drop]
      congr 1
      exact (Nat.mod_eq_of_lt (by omega)).symm
    · rw [if_neg hi, if_neg hi]
  · rw [hocc, if_neg h]
    unfold contents
    rw [if_neg h, List.getElem?_append]
    have hdl : (p.rand.drop p.first).length = p.count - p.first := by
      rw [List.length_drop, hr]
    by_cases hi : i < p.count - p.first
    · rw [hdl, if_pos hi, List.getElem?_drop, if_pos (by omega)]
      congr 1
      exact (Nat.mod_eq_of_lt (by omega)).symm
    · rw [hdl, if_neg hi, List.getElem?_take]
      by_cases hi2 : i < p.count - p.first + p.last
      · rw [if_pos (by omega), if_pos hi2]
        congr 1
        have h1 : p.first + i = p.count + (i - (p.count - p.first)) := by omega
        rw [h1, Nat.add_mod_left, Nat.mod_eq_of_lt (by omega)]
      · rw [if_neg (by omega), if_neg hi2]

/-! Behavior of rng_pool_put on well-formed pools. -/

theorem rng_pool_put_full (p : RngPool) (hwf : wf p) (hfull : occ p = p.count - 1)
    (store : Bool) (b : Nat) : rng_pool_put p store b = (p, PutRet.enobufs) := by
  have h := (occ_eq_full_iff p hwf).mp hfull
  unfold rng_pool_put
  rw [rng_pool_next_eq p hwf.2.1 p.last hwf.2.2.2.1, if_pos h]

theorem rng_pool_put_nostore (p : RngPool) (hwf : wf p) (hnot : occ p < p.count - 1)
    (b : Nat) : rng_pool_put p false b = (p, PutRet.ebusy) := by
  have h : (p.last + 1) % p.count ≠ p.first := fun hc =>
    absurd ((occ_eq_full_iff p hwf).mpr hc) (by omega)
  unfold rng_pool_put
  rw [rng_pool_next_eq p hwf.2.1 p.last hwf.2.2.2.1, if_neg h]
  rfl

theorem ring_pos_ne_last (p : RngPool) (hwf : wf p) (i : Nat) (hi : i < occ p) :
    (p.first + i) % p.count ≠ p.last := by
  have hos := occ_spec p hwf
  obtain ⟨h2, h255, hf, hl, hr⟩ := hwf
  by_cases h : p.first ≤ p.last
  · rw [hos, if_pos h] at hi
    rw [Nat.mod_eq_of_lt (by omega)]
    omega
  · rw [hos, if_neg h] at hi
    by_cases hc : p.first + i < p.count
    · rw [Nat.mod_eq_of_lt hc]
      omega
    · have h1 : p.first + i = p.count + (p.first + i - p.count) := by omega
      rw [h1, Nat.add_mod_left, Nat.mod_eq_of_lt (by omega)]
      omega

theorem ring_pos_occ_eq_last (p : RngPool) (hwf : wf p) :
    (p.first + occ p) % p.count = p.last := by
  have hos := occ_spec p hwf
  obtain ⟨h2, h255, hf, hl, hr⟩ := hwf
  by_cases h : p.first ≤ p.last
  · rw [hos, if_pos h]
    have h1 : p.first + (p.last - p.first) = p.last := by omega
    rw [h1, Nat.mod_eq_of_lt (by omega)]
  · rw [hos, if_neg h]
    have h1 : p.first + (p.count - p.first + p.last) = p.count + p.last := by omega
    rw [h1, Nat.add_mod_left, Nat.mod_eq_of_lt (by omega)]


theorem rng_pool_put_store (p : RngPool) (hwf : wf p) (hnot : occ p < p.count - 1)
    (b : Nat) :
    (rng_pool_put p true b).1.count = p.count ∧
    (rng_pool_put p true b).1.threshold = p.threshold ∧
    (rng_pool_put p true b).1.first = p.first ∧
    (rng_pool_put p true b).1.last = (p.last + 1) % p.count ∧
    (rng_pool_put p true b).1.rand = p.rand.set p.last b ∧
    wf (rng_pool_put p true b).1 ∧
    contents (rng_pool_put p true b).1 = contents p ++ [b] ∧
    (rng_pool_put p true b).2 =
      (if occ p + 1 = p.count - 1 then PutRet.ok else PutRet.ebusy) := by
  obtain ⟨h2, h255, hf, hl, hr⟩ := hwf
  have hwf : wf p := ⟨h2, h255, hf, hl, hr⟩
  have hnext := rng_pool_next_eq p h255 p.last hl
  have hne : rng_pool_next p p.last ≠ p.first := by
    rw [hnext]
    exact fun hc => absurd ((occ_eq_full_iff p hwf).mpr hc) (by omega)
  set p1 : RngPool := { p with rand := p.rand.set p.last b,
                               last := rng_pool_next p p.last } with hp1
  have hput : rng_pool_put p true b =
      (p1, if rng_pool_next p1 p1.last = p1.first then PutRet.ok else PutRet.ebusy) := by
    unfold rng_pool_put
    rw [if_neg hne, Bool.not_true, if_neg Bool.false_ne_true, ← hp1]
    show (if rng_pool_next p1 p1.last = p1.first then (p1, PutRet.ok)
          else (p1, PutRet.ebusy)) =
        (p1, if rng_pool_next p1 p1.last = p1.first then PutRet.ok else PutRet.ebusy)
    split <;> rfl
  have hlast1 : p1.last = (p.last + 1) % p.count := hnext
  have hwf1 : wf p1 := by
    refine ⟨h2, h255, hf, ?_, ?_⟩
    · rw [hlast1]
      exact Nat.mod_lt _ (by omega)
    · show (p.rand.set p.last b).length = p.count
      rw [List.length_set, hr]
  have hocc1 : occ p1 = occ p + 1 := by
    have hos := occ_spec p hwf
    have hos1 := occ_spec p1 hwf1
    have hfst1 : p1.first = p.first := rfl
    have hcnt1 : p1.count = p.count := rfl
    have hnf : ¬ (p.last + 1) % p.count = p.first := fun hc =>
      absurd ((occ_eq_full_iff p hwf).mpr hc) (by omega)
    rw [hos1, hos, hfst1, hcnt1, hlast1, succ_mod_ite p.last p.count (by omega)]
    rw [succ_mod_ite p.last p.count (by omega)] at hnf
    by_cases hw : p.last + 1 = p.count
    · rw [if_pos hw] at hnf ⊢
      split <;> split <;> omega
    · rw [if_neg hw] at hnf ⊢
      split <;> split <;> omega
  have hcontents : contents p1 = contents p ++ [b] := by
    apply List.ext_getElem?
    intro i
    have hfst1 : p1.first = p.first := rfl
    have hcnt1 : p1.count = p.count := rfl
    have hrnd1 : p1.rand = p.rand.set p.last b := rfl
    rw [contents_getElem? p1 hwf1 i, List.getElem?_append, contents_length,
      hfst1, hcnt1, hrnd1, hocc1]
    by_cases hi : i < occ p
    · rw [if_pos (show i < occ p + 1 by omega), if_pos hi, List.getElem?_set,
        if_neg (Ne.symm (ring_pos_ne_last p hwf i hi)),
        contents_getElem? p hwf i, if_pos hi]
    · by_cases hieq : i = occ p
      · subst hieq
        rw [if_pos (Nat.lt_succ_self _), if_neg (Nat.lt_irrefl _), Nat.sub_self,
          ring_pos_occ_eq_last p hwf, List.getElem?_set, if_pos rfl,
          if_pos (show p.last < p.rand.length by omega)]
        rfl
      · rw [if_neg (show ¬ i < occ p + 1 by omega), if_neg hi,
          List.getElem?_eq_none (show ([b] : List Nat).length ≤ i - occ p by
            simp; omega)]
  refine ⟨by rw [hput], by rw [hput], by rw [hput], by rw [hput]; exact hlast1,
    by rw [hput], by rw [hput]; exact hwf1, by rw [hput]; exact hcontents, ?_⟩
  rw [hput]
  show (if rng_pool_next p1 p1.last = p1.first then PutRet.ok else PutRet.ebusy) = _
  have hnext1 : rng_pool_next p1 p1.last = (p1.last + 1) % p1.count :=
    rng_pool_next_eq p1 hwf1.2.1 p1.last hwf1.2.2.2.1
  by_cases hfull1 : occ p + 1 = p.count - 1
  · rw [if_pos hfull1, hnext1,
      if_pos ((occ_eq_full_iff p1 hwf1).mp (by rw [hocc1]; exact hfull1))]
  · rw [if_neg hfull1, hnext1, if_neg]
    intro hc
    exact hfull1 (by rw [← hocc1]; exact (occ_eq_full_iff p1 hwf1).mpr hc)

/-! Branch-by-branch evaluation of rng_pool_get, following the control flow of
lines 123-183: contiguous case (first <= last) with partial or full
availability, then the wrap-around case with its optional second copy
segment. -/

theorem rng_pool_get_eval_contig_small (p : RngPool) (n : Nat) (buf : List Nat)
    (h1 : p.first ≤ p.last) (h2 : n < p.last - p.first) :
    rng_pool_get p n buf =
      ({ p with first := (p.first + n) % 256 }, 0, copy_back p.rand buf p.first n n,
        decide ((p.last - p.first - n) % 256 < p.threshold)) := by
  simp only [rng_pool_get]
  rw [if_pos h1, if_pos h2]
  simp

theorem rng_pool_get_eval_contig_all (p : RngPool) (n : Nat) (buf : List Nat)
    (h1 : p.first ≤ p.last) (h2 : ¬ n < p.last - p.first) :
    rng_pool_get p n buf =
      ({ p with first := (p.first + (p.last - p.first)) % 256 }, n - (p.last - p.first),
        copy_back p.rand buf p.first n (p.last - p.first),
        decide (0 < p.threshold)) := by
  simp only [rng_pool_get]
  rw [if_pos h1, if_neg h2]

theorem rng_pool_get_eval_wrap_small (p : RngPool) (n : Nat) (buf : List Nat)
    (h1 : ¬ p.first ≤ p.last) (h2 : n < p.count - p.first) :
    rng_pool_get p n buf =
      ({ p with first := (p.first + n) % 256 }, 0, copy_back p.rand buf p.first n n,
        decide ((p.count - p.first + p.last - n) % 256 < p.threshold)) := by
  simp only [rng_pool_get]
  rw [if_neg h1, if_pos h2]
  simp

theorem rng_pool_get_eval_wrap_seg2_small (p : RngPool) (n : Nat) (buf : List Nat)
    (h1 : ¬ p.first ≤ p.last) (h2 : ¬ n < p.count - p.first)
    (h3 : n - (p.count - p.first) ≠ 0) (h4 : n - (p.count - p.first) < p.last) :
    rng_pool_get p n buf =
      ({ p with first := n - (p.count - p.first) }, 0,
        copy_back p.rand (copy_back p.rand buf p.first n (p.count - p.first)) 0
          (n - (p.count - p.first)) (n - (p.count - p.first)),
        decide ((p.last - (n - (p.count - p.first))) % 256 < p.threshold)) := by
  have h5 : p.last ≠ 0 := by omega
  simp only [rng_pool_get]
  rw [if_neg h1, if_neg h2, if_pos ⟨h3, h5⟩, if_pos h4]
  simp

theorem rng_pool_get_eval_wrap_seg2_all (p : RngPool) (n : Nat) (buf : List Nat)
    (h1 : ¬ p.first ≤ p.last) (h2 : ¬ n < p.count - p.first)
    (h3 : n - (p.count - p.first) ≠ 0) (h4 : ¬ n - (p.count - p.first) < p.last)
    (h5 : p.last ≠ 0) :
    rng_pool_get p n buf =
      ({ p with first := p.last }, n - (p.count - p.first) - p.last,
        copy_back p.rand (copy_back p.rand buf p.first n (p.count - p.first)) 0
          (n - (p.count - p.first)) p.last,
        decide (0 < p.threshold)) := by
  simp only [rng_pool_get]
  rw [if_neg h1, if_neg h2, if_pos ⟨h3, h5⟩, if_neg h4]

theorem rng_pool_get_eval_wrap_noseg2 (p : RngPool) (n : Nat) (buf : List Nat)
    (h1 : ¬ p.first ≤ p.last) (h2 : ¬ n < p.count - p.first)
    (h3 : n - (p.count - p.first) = 0 ∨ p.last = 0) :
    rng_pool_get p n buf =
      ({ p with first := 0 }, n - (p.count - p.first),
        copy_back p.rand buf p.first n (p.count - p.first),
        decide (p.last < p.threshold)) := by
  simp only [rng_pool_get]
  rw [if_neg h1, if_neg h2, if_neg (by tauto)]

/-! Advancing the head index by k consumed bytes: the uniform effect of
rng_pool_get on the pool state. -/

theorem wf_advance (p : RngPool) (hwf : wf p) (k : Nat) :
    wf { p with first := (p.first + k) % p.count } := by
  obtain ⟨h2, h255, hf, hl, hr⟩ := hwf
  exact ⟨h2, h255, Nat.mod_lt _ (by omega), hl, hr⟩

theorem occ_advance (p : RngPool) (hwf : wf p) (k : Nat) (hk : k ≤ occ p) :
    occ { p with first := (p.first + k) % p.count } = occ p - k := by
  have hos := occ_spec p hwf
  have hwf1 := wf_advance p hwf k
  have hos1 := occ_spec _ hwf1
  obtain ⟨h2, h255, hf, hl, hr⟩ := hwf
  rw [hos1]
  dsimp only
  by_cases h1 : p.first ≤ p.last
  · rw [hos, if_pos h1] at hk ⊢
    have hm : (p.first + k) % p.count = p.first + k := Nat.mod_eq_of_lt (by omega)
    rw [hm, if_pos (by omega)]
    omega
  · rw [hos, if_neg h1] at hk ⊢
    by_cases hc : p.first + k < p.count
    · have hm : (p.first + k) % p.count = p.first + k := Nat.mod_eq_of_lt hc
      rw [hm, if_neg (by omega)]
      omega
    · have hm : (p.first + k) % p.count = p.first + k - p.count := by
        rw [Nat.mod_eq_sub_mod (by omega), Nat.mod_eq_of_lt (by omega)]
      rw [hm, if_pos (by omega)]
      omega

theorem contents_advance (p : RngPool) (hwf : wf p) (k : Nat) (hk : k ≤ occ p) :
    contents { p with first := (p.first + k) % p.count } = (contents p).drop k := by
  have hwf1 := wf_advance p hwf k
  have hocc1 := occ_advance p hwf k hk
  apply List.ext_getElem?
  intro i
  rw [contents_getElem? _ hwf1 i, List.getElem?_drop, contents_getElem? p hwf (k + i),
    hocc1]
  dsimp only
  by_cases hi : i < occ p - k
  · rw [if_pos hi, if_pos (by omega)]
    congr 1
    rw [Nat.mod_add_mod, Nat.add_assoc]
  · rw [if_neg hi, if_neg (by omega)]

theorem contents_ring (p : RngPool) (hwf : wf p) (i : Nat) (hi : i < occ p) :
    (contents p)[i]? = p.rand[(p.first + i) % p.count]? := by
  rw [contents_getElem? p hwf i, if_pos hi]

theorem copy_back_deliver (src buf : List Nat) (s n m : Nat) (hm : m ≤ n)
    (hbuf : n ≤ buf.length) (hs : s + m ≤ src.length) (i : Nat) (hi : i < m) :
    (copy_back src buf s n m)[n - 1 - i]? = src[s + i]? := by
  rw [copy_back_getElem? src m buf s n hm hbuf hs (n - 1 - i), if_pos (by omega)]
  congr 1
  omega

theorem copy_back_untouched (src buf : List Nat) (s n m : Nat) (hm : m ≤ n)
    (hbuf : n ≤ buf.length) (hs : s + m ≤ src.length) (j : Nat)
    (hj : j < n - m ∨ n ≤ j) :
    (copy_back src buf s n m)[j]? = buf[j]? := by
  rw [copy_back_getElem? src m buf s n hm hbuf hs j, if_neg (by omega)]

/-- Master specification of rng_pool_get on a well-formed pool: the head
advances by `k = min octets occupancy`, exactly the `k` oldest bytes are
removed (FIFO removal), the shortfall `octets - k` is returned, the `k`
delivered bytes are written backward from index `octets - 1` of the
destination (the i-th oldest byte lands at index `octets - 1 - i`), all other
destination slots are untouched, and the START trigger fires exactly when the
post-read occupancy is strictly below the threshold. -/
theorem rng_pool_get_spec (p : RngPool) (hwf : wf p) (n : Nat) (buf : List Nat)
    (hbuf : n ≤ buf.length) :
    (rng_pool_get p n buf).1 = { p with first := (p.first + min n (occ p)) % p.count } ∧
    wf (rng_pool_get p n buf).1 ∧
    contents (rng_pool_get p n buf).1 = (contents p).drop (min n (occ p)) ∧
    (rng_pool_get p n buf).2.1 = n - min n (occ p) ∧
    (rng_pool_get p n buf).2.2.1.length = buf.length ∧
    (∀ i, i < min n (occ p) →
      (rng_pool_get p n buf).2.2.1[n - 1 - i]? = (contents p)[i]?) ∧
    (∀ j, j < n - min n (occ p) ∨ n ≤ j →
      (rng_pool_get p n buf).2.2.1[j]? = buf[j]?) ∧
    (rng_pool_get p n buf).2.2.2 = decide (occ p - min n (occ p) < p.threshold) := by
  obtain ⟨h2, h255, hf, hl, hr⟩ := hwf
  have hwf' : wf p := ⟨h2, h255, hf, hl, hr⟩
  have hos := occ_spec p hwf'
  suffices h : (rng_pool_get p n buf).1 =
        { p with first := (p.first + min n (occ p)) % p.count } ∧
      (rng_pool_get p n buf).2.1 = n - min n (occ p) ∧
      (rng_pool_get p n buf).2.2.1.length = buf.length ∧
      (∀ i, i < min n (occ p) →
        (rng_pool_get p n buf).2.2.1[n - 1 - i]? = (contents p)[i]?) ∧
      (∀ j, j < n - min n (occ p) ∨ n ≤ j →
        (rng_pool_get p n buf).2.2.1[j]? = buf[j]?) ∧
      (rng_pool_get p n buf).2.2.2 = decide (occ p - min n (occ p) < p.threshold) by
    obtain ⟨hstate, hshort, hlen, hdel, hunt, hflag⟩ := h
    refine ⟨hstate, ?_, ?_, hshort, hlen, hdel, hunt, hflag⟩
    · rw [hstate]; exact wf_advance p hwf' _
    · rw [hstate]; exact contents_advance p hwf' _ (Nat.min_le_right _ _)
  by_cases h1 : p.first ≤ p.last
  case pos =>
    have hoscA : occ p = p.last - p.first := by rw [hos, if_pos h1]
    by_cases h2 : n < p.last - p.first
    case pos =>
      have hk : min n (occ p) = n := by omega
      rw [rng_pool_get_eval_contig_small p n buf h1 h2]
      dsimp only
      have hmf : (p.first + n) % 256 = (p.first + n) % p.count := by
        rw [Nat.mod_eq_of_lt (by omega), Nat.mod_eq_of_lt (by omega)]
      refine ⟨by rw [hk, hmf], by omega,
        copy_back_length p.rand n buf p.first n, ?_, ?_, ?_⟩
      · intro i hi
        rw [hk] at hi
        rw [copy_back_deliver p.rand buf p.first n n (Nat.le_refl n) hbuf (by omega) i hi,
          contents_ring p hwf' i (by omega), Nat.mod_eq_of_lt (by omega)]
      · intro j hj
        exact copy_back_untouched p.rand buf p.first n n (Nat.le_refl n) hbuf
          (by omega) j (by omega)
      · have harg : (p.last - p.first - n) % 256 = occ p - min n (occ p) := by
          rw [Nat.mod_eq_of_lt (by omega)]
          omega
        rw [harg]
    case neg =>
      have hk : min n (occ p) = p.last - p.first := by omega
      rw [rng_pool_get_eval_contig_all p n buf h1 h2]
      dsimp only
      have hmf : (p.first + (p.last - p.first)) % 256 =
          (p.first + min n (occ p)) % p.count := by
        rw [hk, Nat.mod_eq_of_lt (by omega), Nat.mod_eq_of_lt (by omega)]
      refine ⟨by rw [hmf], by omega,
        copy_back_length p.rand (p.last - p.first) buf p.first n, ?_, ?_, ?_⟩
      · intro i hi
        rw [hk] at hi
        rw [copy_back_deliver p.rand buf p.first n (p.last - p.first) (by omega) hbuf
          (by omega) i hi, contents_ring p hwf' i (by omega),
          Nat.mod_eq_of_lt (by omega)]
      · intro j hj
        rw [hk] at hj
        exact copy_back_untouched p.rand buf p.first n (p.last - p.first) (by omega)
          hbuf (by omega) j (by omega)
      · have harg : occ p - min n (occ p) = 0 := by omega
        rw [harg]
  case neg =>
    have hoscB : occ p = p.count - p.first + p.last := by rw [hos, if_neg h1]
    by_cases h2 : n < p.count - p.first
    case pos =>
      have hk : min n (occ p) = n := by omega
      rw [rng_pool_get_eval_wrap_small p n buf h1 h2]
      dsimp only
      have hmf : (p.first + n) % 256 = (p.first + n) % p.count := by
        rw [Nat.mod_eq_of_lt (by omega), Nat.mod_eq_of_lt (by omega)]
      refine ⟨by rw [hk, hmf], by omega,
        copy_back_length p.rand n buf p.first n, ?_, ?_, ?_⟩
      · intro i hi
        rw [hk] at hi
        rw [copy_back_deliver p.rand buf p.first n n (Nat.le_refl n) hbuf (by omega) i hi,
          contents_ring p hwf' i (by omega), Nat.mod_eq_of_lt (by omega)]
      · intro j hj
        exact copy_back_untouched p.rand buf p.first n n (Nat.le_refl n) hbuf
          (by omega) j (by omega)
      · have harg : (p.count - p.first + p.last - n) % 256 = occ p - min n (occ p) := by
          rw [Nat.mod_eq_of_lt (by omega)]
          omega
        rw [harg]
    case neg =>
      by_cases h3 : n - (p.count - p.first) = 0 ∨ p.last = 0
      case pos =>
        have hk : min n (occ p) = p.count - p.first := by omega
        rw [rng_pool_get_eval_wrap_noseg2 p n buf h1 h2 h3]
        dsimp only
        have hmf : (p.first + min n (occ p)) % p.count = 0 := by
          rw [hk]
          have hsum : p.first + (p.count - p.first) = p.count := by omega
          rw [hsum, Nat.mod_self]
        refine ⟨by rw [hmf], by omega,
          copy_back_length p.rand (p.count - p.first) buf p.first n, ?_, ?_, ?_⟩
        · intro i hi
          rw [hk] at hi
          rw [copy_back_deliver p.rand buf p.first n (p.count - p.first) (by omega) hbuf
            (by omega) i hi, contents_ring p hwf' i (by omega),
            Nat.mod_eq_of_lt (by omega)]
        · intro j hj
          rw [hk] at hj
          exact copy_back_untouched p.rand buf p.first n (p.count - p.first) (by omega)
            hbuf (by omega) j (by omega)
        · have harg : p.last = occ p - min n (occ p) := by omega
          rw [← harg]
      case neg =>
        push_neg at h3
        obtain ⟨hn0, hlast0⟩ := h3
        have hinlen : (copy_back p.rand buf p.first n (p.count - p.first)).length =
            buf.length := copy_back_length p.rand (p.count - p.first) buf p.first n
        by_cases h4 : n - (p.count - p.first) < p.last
        case pos =>
          have hk : min n (occ p) = n := by omega
          rw [rng_pool_get_eval_wrap_seg2_small p n buf h1 h2 hn0 h4]
          dsimp only
          set q := n - (p.count - p.first) with hq
          have hmf : (p.first + min n (occ p)) % p.count = q := by
            rw [hk, Nat.mod_eq_sub_mod (by omega), Nat.mod_eq_of_lt (by omega)]
            omega
          refine ⟨by rw [hmf], by omega, ?_, ?_, ?_, ?_⟩
          · rw [copy_back_length p.rand q _ 0 q, hinlen]
          · intro i hi
            rw [hk] at hi
            by_cases hseg : i < p.count - p.first
            · rw [copy_back_untouched p.rand _ 0 q q (Nat.le_refl q)
                (by rw [hinlen]; omega) (by omega) (n - 1 - i) (by omega),
                copy_back_deliver p.rand buf p.first n (p.count - p.first) (by omega)
                  hbuf (by omega) i hseg,
                contents_ring p hwf' i (by omega), Nat.mod_eq_of_lt (by omega)]
            · have hi2 : i - (p.count - p.first) < q := by omega
              have hj : n - 1 - i = q - 1 - (i - (p.count - p.first)) := by omega
              rw [hj, copy_back_deliver p.rand _ 0 q q (Nat.le_refl q)
                (by rw [hinlen]; omega) (by omega) (i - (p.count - p.first)) hi2,
                contents_ring p hwf' i (by omega)]
              have hmod : (p.first + i) % p.count = i - (p.count - p.first) := by
                rw [Nat.mod_eq_sub_mod (by omega), Nat.mod_eq_of_lt (by omega)]
                omega
              rw [hmod, Nat.zero_add]
          · intro j hj
            have hjn : n ≤ j := by omega
            rw [copy_back_untouched p.rand _ 0 q q (Nat.le_refl q)
              (by rw [hinlen]; omega) (by omega) j (by omega),
              copy_back_untouched p.rand buf p.first n (p.count - p.first) (by omega)
                hbuf (by omega) j (by omega)]
          · have harg : (p.last - q) % 256 = occ p - min n (occ p) := by
              rw [Nat.mod_eq_of_lt (by omega)]
              omega
            rw [harg]
        case neg =>
          have hk : min n (occ p) = occ p := by omega
          rw [rng_pool_get_eval_wrap_seg2_all p n buf h1 h2 hn0 h4 hlast0]
          dsimp only
          set q := n - (p.count - p.first) with hq
          have hmf : (p.first + min n (occ p)) % p.count = p.last := by
            rw [hk]
            exact ring_pos_occ_eq_last p hwf'
          refine ⟨by rw [hmf], by omega, ?_, ?_, ?_, ?_⟩
          · rw [copy_back_length p.rand p.last _ 0 q, hinlen]
          · intro i hi
            rw [hk] at hi
            by_cases hseg : i < p.count - p.first
            · rw [copy_back_untouched p.rand _ 0 q p.last (by omega)
                (by rw [hinlen]; omega) (by omega) (n - 1 - i) (by omega),
                copy_back_deliver p.rand buf p.first n (p.count - p.first) (by omega)
                  hbuf (by omega) i hseg,
                contents_ring p hwf' i (by omega), Nat.mod_eq_of_lt (by omega)]
            · have hi2 : i - (p.count - p.first) < p.last := by omega
              have hj : n - 1 - i = q - 1 - (i - (p.count - p.first)) := by omega
              rw [hj, copy_back_deliver p.rand _ 0 q p.last (by omega)
                (by rw [hinlen]; omega) (by omega) (i - (p.count - p.first)) hi2,
                contents_ring p hwf' i (by omega)]
              have hmod : (p.first + i) % p.count = i - (p.count - p.first) := by
                rw [Nat.mod_eq_sub_mod (by omega), Nat.mod_eq_of_lt (by omega)]
                omega
              rw [hmod, Nat.zero_add]
          · intro j hj
            rw [copy_back_untouched p.rand _ 0 q p.last (by omega)
              (by rw [hinlen]; omega) (by omega) j (by omega),
              copy_back_untouched p.rand buf p.first n (p.count - p.first) (by omega)
                hbuf (by omega) j (by omega)]
          · have harg : occ p - min n (occ p) = 0 := by omega
            rw [harg]

/-- The pool-state outcome, shortfall and START trigger of rng_pool_get do not
depend on the destination buffer; this variant of the specification carries no
buffer hypotheses. -/
theorem rng_pool_get_state (p : RngPool) (hwf : wf p) (n : Nat) (buf : List Nat) :
    (rng_pool_get p n buf).1 = { p with first := (p.first + min n (occ p)) % p.count } ∧
    (rng_pool_get p n buf).2.1 = n - min n (occ p) ∧
    (rng_pool_get p n buf).2.2.2 = decide (occ p - min n (occ p) < p.threshold) := by
  obtain ⟨h2, h255, hf, hl, hr⟩ := hwf
  have hwf' : wf p := ⟨h2, h255, hf, hl, hr⟩
  have hos := occ_spec p hwf'
  by_cases h1 : p.first ≤ p.last
  case pos =>
    have hoscA : occ p = p.last - p.first := by rw [hos, if_pos h1]
    by_cases h2 : n < p.last - p.first
    case pos =>
      have hk : min n (occ p) = n := by omega
      rw [rng_pool_get_eval_contig_small p n buf h1 h2]
      dsimp only
      have hmf : (p.first + n) % 256 = (p.first + n) % p.count := by
        rw [Nat.mod_eq_of_lt (by omega), Nat.mod_eq_of_lt (by omega)]
      refine ⟨by rw [hk, hmf], by omega, ?_⟩
      have harg : (p.last - p.first - n) % 256 = occ p - min n (occ p) := by
        rw [Nat.mod_eq_of_lt (by omega)]
        omega
      rw [harg]
    case neg =>
      have hk : min n (occ p) = p.last - p.first := by omega
      rw [rng_pool_get_eval_contig_all p n buf h1 h2]
      dsimp only
      have hmf : (p.first + (p.last - p.first)) % 256 =
          (p.first + min n (occ p)) % p.count := by
        rw [hk, Nat.mod_eq_of_lt (by omega), Nat.mod_eq_of_lt (by omega)]
      refine ⟨by rw [hmf], by omega, ?_⟩
      have harg : occ p - min n (occ p) = 0 := by omega
      rw [harg]
  case neg =>
    have hoscB : occ p = p.count - p.first + p.last := by rw [hos, if_neg h1]
    by_cases h2 : n < p.count - p.first
    case pos =>
      have hk : min n (occ p) = n := by omega
      rw [rng_pool_get_eval_wrap_small p n buf h1 h2]
      dsimp only
      have hmf : (p.first + n) % 256 = (p.first + n) % p.count := by
        rw [Nat.mod_eq_of_lt (by omega), Nat.mod_eq_of_lt (by omega)]
      refine ⟨by rw [hk, hmf], by omega, ?_⟩
      have harg : (p.count - p.first + p.last - n) % 256 = occ p - min n (occ p) := by
        rw [Nat.mod_eq_of_lt (by omega)]
        omega
      rw [harg]
    case neg =>
      by_cases h3 : n - (p.count - p.first) = 0 ∨ p.last = 0
      case pos =>
        have hk : min n (occ p) = p.count - p.first := by omega
        rw [rng_pool_get_eval_wrap_noseg2 p n buf h1 h2 h3]
        dsimp only
        have hmf : (p.first + min n (occ p)) % p.count = 0 := by
          rw [hk]
          have hsum : p.first + (p.count - p.first) = p.count := by omega
          rw [hsum, Nat.mod_self]
        refine ⟨by rw [hmf], by omega, ?_⟩
        have harg : p.last = occ p - min n (occ p) := by omega
        rw [← harg]
      case neg =>
        push_neg at h3
        obtain ⟨hn0, hlast0⟩ := h3
        by_cases h4 : n - (p.count - p.first) < p.last
        case pos =>
          have hk : min n (occ p) = n := by omega
          rw [rng_pool_get_eval_wrap_seg2_small p n buf h1 h2 hn0 h4]
          dsimp only
          set q := n - (p.count - p.first) with hq
          have hmf : (p.first + min n (occ p)) % p.count = q := by
            rw [hk, Nat.mod_eq_sub_mod (by omega), Nat.mod_eq_of_lt (by omega)]
            omega
          refine ⟨by rw [hmf], by omega, ?_⟩
          have harg : (p.last - q) % 256 = occ p - min n (occ p) := by
            rw [Nat.mod_eq_of_lt (by omega)]
            omega
          rw [harg]
        case neg =>
          have hk : min n (occ p) = occ p := by omega
          rw [rng_pool_get_eval_wrap_seg2_all p n buf h1 h2 hn0 h4 hlast0]
          dsimp only
          set q := n - (p.count - p.first) with hq
          have hmf : (p.first + min n (occ p)) % p.count = p.last := by
            rw [hk]
            exact ring_pos_occ_eq_last p hwf'
          refine ⟨by rw [hmf], by omega, ?_⟩
          have harg : occ p - min n (occ p) = 0 := by omega
          rw [harg]

theorem rng_pool_get_wf (p : RngPool) (hwf : wf p) (n : Nat) (buf : List Nat) :
    wf (rng_pool_get p n buf).1 := by
  rw [(rng_pool_get_state p hwf n buf).1]
  exact wf_advance p hwf _

theorem rng_pool_get_contents (p : RngPool) (hwf : wf p) (n : Nat) (buf : List Nat) :
    contents (rng_pool_get p n buf).1 = (contents p).drop (min n (occ p)) := by
  rw [(rng_pool_get_state p hwf n buf).1]
  exact contents_advance p hwf _ (Nat.min_le_right _ _)

theorem rng_pool_get_frame (p : RngPool) (hwf : wf p) (n : Nat) (buf : List Nat) :
    (rng_pool_get p n buf).1.count = p.count ∧
    (rng_pool_get p n buf).1.threshold = p.threshold ∧
    (rng_pool_get p n buf).1.last = p.last ∧
    (rng_pool_get p n buf).1.rand = p.rand := by
  rw [(rng_pool_get_state p hwf n buf).1]
  exact ⟨rfl, rfl, rfl, rfl⟩

theorem rng_pool_put_wf (p : RngPool) (hwf : wf p) (st : Bool) (b : Nat) :
    wf (rng_pool_put p st b).1 := by
  by_cases hfull : occ p = p.count - 1
  · rw [rng_pool_put_full p hwf hfull st b]; exact hwf
  · have hle := occ_le p hwf
    cases st
    · rw [rng_pool_put_nostore p hwf (by omega) b]; exact hwf
    · exact (rng_pool_put_store p hwf (by omega) b).2.2.2.2.2.1

theorem rng_pool_put_frame (p : RngPool) (hwf : wf p) (st : Bool) (b : Nat) :
    (rng_pool_put p st b).1.count = p.count ∧
    (rng_pool_put p st b).1.threshold = p.threshold ∧
    (rng_pool_put p st b).1.first = p.first := by
  by_cases hfull : occ p = p.count - 1
  · rw [rng_pool_put_full p hwf hfull st b]; exact ⟨rfl, rfl, rfl⟩
  · have hle := occ_le p hwf
    cases st
    · rw [rng_pool_put_nostore p hwf (by omega) b]; exact ⟨rfl, rfl, rfl⟩
    · have hs := rng_pool_put_store p hwf (by omega) b
      exact ⟨hs.1, hs.2.1, hs.2.2.1⟩

theorem rng_pool_put_ret (p : RngPool) (hwf : wf p) (b : Nat) :
    (rng_pool_put p true b).2 =
      if occ p = p.count - 1 then PutRet.enobufs
      else if occ p + 1 = p.count - 1 then PutRet.ok else PutRet.ebusy := by
  by_cases h1 : occ p = p.count - 1
  · rw [rng_pool_put_full p hwf h1 true b, if_pos h1]
  · have hle := occ_le p hwf
    rw [if_neg h1, (rng_pool_put_store p hwf (by omega) b).2.2.2.2.2.2.2]

theorem rng_pool_put_probe (p : RngPool) (hwf : wf p) (b : Nat) :
    (rng_pool_put p false b).1 = p ∧
    (rng_pool_put p false b).2 =
      (if occ p = p.count - 1 then PutRet.enobufs else PutRet.ebusy) := by
  by_cases h1 : occ p = p.count - 1
  · rw [rng_pool_put_full p hwf h1 false b]
    exact ⟨rfl, by rw [if_pos h1]⟩
  · have hle := occ_le p hwf
    rw [rng_pool_put_nostore p hwf (by omega) b]
    exact ⟨rfl, by rw [if_neg h1]⟩

theorem isr_fst (b : Nat) (ip tp : RngPool) :
    (isr (some b) ip tp).1 = (rng_pool_put ip true b).1 := by
  simp only [isr]
  split <;> rfl

/-- Occupancy-level characterization of one interrupt-handler invocation that
sampled byte `b`: the thread-tier pool is written only when the ISR-tier pool
was already full (`-ENOBUFS` on the ISR-tier put); the wake is given exactly
when the ISR-tier put reported other than `-EBUSY` (ISR-tier occupancy at least
count - 2); STOP is triggered exactly when, in addition, the thread-tier put of
the same invocation reported other than `-EBUSY`. -/
theorem isr_spec (b : Nat) (ip tp : RngPool) (hip : wf ip) (htp : wf tp) :
    (isr (some b) ip tp).2.1 =
      (if occ ip = ip.count - 1 then (rng_pool_put tp true b).1 else tp) ∧
    (isr (some b) ip tp).2.2.1 = decide (ip.count - 2 ≤ occ ip) ∧
    (isr (some b) ip tp).2.2.2 =
      decide ((occ ip = ip.count - 1 ∧ tp.count - 2 ≤ occ tp) ∨
        (occ ip = ip.count - 2 ∧ occ tp = tp.count - 1)) := by
  obtain ⟨hic2, hic255, hif, hil, hir⟩ := hip
  have hip : wf ip := ⟨hic2, hic255, hif, hil, hir⟩
  obtain ⟨htc2, htc255, htf, htl, htr⟩ := htp
  have htp : wf tp := ⟨htc2, htc255, htf, htl, htr⟩
  have hle := occ_le ip hip
  have hlet := occ_le tp htp
  have hret := rng_pool_put_ret ip hip b
  simp only [isr]
  by_cases h1 : occ ip = ip.count - 1
  · rw [if_pos h1] at hret
    rw [hret, if_pos (show PutRet.enobufs ≠ PutRet.ebusy by decide)]
    dsimp only
    rw [show decide (PutRet.enobufs = PutRet.enobufs) = true from rfl]
    refine ⟨by rw [if_pos h1], (decide_eq_true (by omega)).symm, ?_⟩
    have hiff : ((rng_pool_put tp true b).2 ≠ PutRet.ebusy) ↔
        ((occ ip = ip.count - 1 ∧ tp.count - 2 ≤ occ tp) ∨
          (occ ip = ip.count - 2 ∧ occ tp = tp.count - 1)) := by
      rw [rng_pool_put_ret tp htp b]
      by_cases ha : occ tp = tp.count - 1
      · rw [if_pos ha]
        exact iff_of_true (by decide) (Or.inl ⟨h1, by omega⟩)
      · rw [if_neg ha]
        by_cases hb : occ tp + 1 = tp.count - 1
        · rw [if_pos hb]
          exact iff_of_true (by decide) (Or.inl ⟨h1, by omega⟩)
        · rw [if_neg hb]
          refine iff_of_false (by simp) ?_
          rintro (⟨_, hx⟩ | ⟨hx, _⟩) <;> omega
    exact (decide_eq_decide).mpr hiff
  · by_cases h2 : occ ip + 1 = ip.count - 1
    · rw [if_neg h1, if_pos h2] at hret
      rw [hret, if_pos (show PutRet.ok ≠ PutRet.ebusy by decide)]
      dsimp only
      rw [show decide (PutRet.ok = PutRet.enobufs) = false from rfl]
      have hprobe := rng_pool_put_probe tp htp b
      refine ⟨by rw [hprobe.1, if_neg h1], (decide_eq_true (by omega)).symm, ?_⟩
      have hiff : ((rng_pool_put tp false b).2 ≠ PutRet.ebusy) ↔
          ((occ ip = ip.count - 1 ∧ tp.count - 2 ≤ occ tp) ∨
            (occ ip = ip.count - 2 ∧ occ tp = tp.count - 1)) := by
        rw [hprobe.2]
        by_cases ha : occ tp = tp.count - 1
        · rw [if_pos ha]
          exact iff_of_true (by decide) (Or.inr ⟨by omega, ha⟩)
        · rw [if_neg ha]
          refine iff_of_false (by simp) ?_
          rintro (⟨hx, _⟩ | ⟨_, hx⟩) <;> omega
      exact (decide_eq_decide).mpr hiff
    · rw [if_neg h1, if_neg h2] at hret
      rw [hret, if_neg (show ¬ PutRet.ebusy ≠ PutRet.ebusy by decide)]
      dsimp only
      refine ⟨by rw [if_neg h1], (decide_eq_false (by omega)).symm,
        (decide_eq_false ?_).symm⟩
      rintro (⟨hx, _⟩ | ⟨hx, _⟩) <;> omega

theorem isr_none (ip tp : RngPool) : isr none ip tp = (ip, tp, false, false) := rfl

theorem wf_init (c t : Nat) (h2 : 2 ≤ c) (h255 : c ≤ 255) :
    wf (rng_pool_init c t) := by
  unfold rng_pool_init wf
  dsimp only
  refine ⟨h2, h255, by omega, by omega, ?_⟩
  simp

theorem contents_init (c t : Nat) : contents (rng_pool_init c t) = [] := by
  unfold contents rng_pool_init
  simp

theorem occ_init (c t : Nat) : occ (rng_pool_init c t) = 0 := by
  unfold occ
  rw [contents_init]
  rfl

theorem rng_pool_put_list_spec (bs : List Nat) : ∀ p : RngPool, wf p →
    occ p + bs.length ≤ p.count - 1 →
    wf (rng_pool_put_list p bs) ∧
    contents (rng_pool_put_list p bs) = contents p ++ bs ∧
    (rng_pool_put_list p bs).count = p.count ∧
    (rng_pool_put_list p bs).threshold = p.threshold ∧
    (rng_pool_put_list p bs).first = p.first := by
  induction bs with
  | nil =>
    intro p hwf _
    exact ⟨hwf, by simp [rng_pool_put_list], rfl, rfl, rfl⟩
  | cons b bs ih =>
    intro p hwf h
    have hlen : (b :: bs).length = bs.length + 1 := rfl
    have hlt : occ p < p.count - 1 := by rw [hlen] at h; omega
    have hs := rng_pool_put_store p hwf hlt b
    have hocc1 : occ (rng_pool_put p true b).1 = occ p + 1 := by
      unfold occ
      rw [hs.2.2.2.2.2.2.1]
      simp
    have hrec := ih (rng_pool_put p true b).1 hs.2.2.2.2.2.1 (by
      rw [hocc1, hs.1]
      rw [hlen] at h
      omega)
    have hstep : rng_pool_put_list p (b :: bs) =
        rng_pool_put_list (rng_pool_put p true b).1 bs := rfl
    rw [hstep]
    refine ⟨hrec.1, ?_, by rw [hrec.2.2.1, hs.1], by rw [hrec.2.2.2.1, hs.2.1],
      by rw [hrec.2.2.2.2, hs.2.2.1]⟩
    rw [hrec.2.1, hs.2.2.2.2.2.2.1]
    simp

theorem applyOps_wf (ops : List Op) : ∀ p : RngPool, wf p →
    wf (applyOps p ops) ∧ (applyOps p ops).count = p.count ∧
    (applyOps p ops).threshold = p.threshold := by
  induction ops with
  | nil => intro p hwf; exact ⟨hwf, rfl, rfl⟩
  | cons op ops ih =>
    intro p hwf
    have h1 : wf (applyOp p op) ∧ (applyOp p op).count = p.count ∧
        (applyOp p op).threshold = p.threshold := by
      cases op with
      | put st byte =>
        exact ⟨rng_pool_put_wf p hwf st _, (rng_pool_put_frame p hwf st _).1,
          (rng_pool_put_frame p hwf st _).2.1⟩
      | get octets buf =>
        exact ⟨rng_pool_get_wf p hwf _ buf, (rng_pool_get_frame p hwf _ buf).1,
          (rng_pool_get_frame p hwf _ buf).2.1⟩
    have hstep : applyOps p (op :: ops) = applyOps (applyOp p op) ops := rfl
    rw [hstep]
    have hrec := ih (applyOp p op) h1.1
    exact ⟨hrec.1, by rw [hrec.2.1, h1.2.1], by rw [hrec.2.2, h1.2.2]⟩

/-! Claim-level theorems. -/

/-- Claim C1, counterexample.  Take an ISR-tier pool that is already full
(capacity 2, one pending byte, so its put reports `-ENOBUFS`, i.e. Full) and an
empty thread-tier pool.  The claim asserts that when the ISR-tier put reports
Full the thread-tier pool is not written that cycle and no wake signal is
given; the code does the opposite: it stores the byte into the thread-tier
pool and gives the wake. -/
theorem C1_counterexample :
    occ ⟨2, 1, 0, 1, [9, 0]⟩ = (2 : Nat) - 1 ∧
    contents (isr (some 66) ⟨2, 1, 0, 1, [9, 0]⟩ (rng_pool_init 4 1)).2.1 = [66] ∧
    (isr (some 66) ⟨2, 1, 0, 1, [9, 0]⟩ (rng_pool_init 4 1)).2.2.1 = true := by
  decide

/-- Claim C1, amended: in an interrupt-handler invocation that sampled byte
`b`, the thread-tier pool is written only when the ISR-tier put reported
already-Full (`-ENOBUFS`, occupancy count - 1); when the ISR-tier put reported
Stored-with-room (`-EBUSY`, occupancy below count - 2 before the put), the
thread-tier pool is untouched and no wake is given; and the wake signal is
given exactly when the ISR-tier put reported other than `-EBUSY` (ISR-tier
occupancy at least count - 2), regardless of the thread-tier put result. -/
theorem C1_isr_thread_tier_amended (b : Nat) (ip tp : RngPool)
    (hip : wf ip) (htp : wf tp) :
    ((isr (some b) ip tp).2.1 ≠ tp → occ ip = ip.count - 1) ∧
    (occ ip = ip.count - 1 → occ tp < tp.count - 1 →
      contents (isr (some b) ip tp).2.1 = contents tp ++ [b]) ∧
    (occ ip < ip.count - 1 → (isr (some b) ip tp).2.1 = tp) ∧
    (isr (some b) ip tp).2.2.1 = decide (ip.count - 2 ≤ occ ip) := by
  have hs := isr_spec b ip tp hip htp
  refine ⟨?_, ?_, ?_, hs.2.1⟩
  · intro hne
    by_contra h
    rw [hs.1, if_neg h] at hne
    exact hne rfl
  · intro h1 h2
    rw [hs.1, if_pos h1]
    exact (rng_pool_put_store tp htp h2 b).2.2.2.2.2.2.1
  · intro h
    rw [hs.1, if_neg (by omega)]

/-- Claim C1, amended, witness: the concrete full-ISR-pool instance. -/
theorem C1_isr_thread_tier_amended_witness :
    ((isr (some 66) ⟨2, 1, 0, 1, [9, 0]⟩ (rng_pool_init 4 1)).2.1 ≠ rng_pool_init 4 1 →
      occ ⟨2, 1, 0, 1, [9, 0]⟩ = (⟨2, 1, 0, 1, [9, 0]⟩ : RngPool).count - 1) ∧
    (occ ⟨2, 1, 0, 1, [9, 0]⟩ = (⟨2, 1, 0, 1, [9, 0]⟩ : RngPool).count - 1 →
      occ (rng_pool_init 4 1) < (rng_pool_init 4 1).count - 1 →
      contents (isr (some 66) ⟨2, 1, 0, 1, [9, 0]⟩ (rng_pool_init 4 1)).2.1 =
        contents (rng_pool_init 4 1) ++ [66]) ∧
    (occ ⟨2, 1, 0, 1, [9, 0]⟩ < (⟨2, 1, 0, 1, [9, 0]⟩ : RngPool).count - 1 →
      (isr (some 66) ⟨2, 1, 0, 1, [9, 0]⟩ (rng_pool_init 4 1)).2.1 = rng_pool_init 4 1) ∧
    (isr (some 66) ⟨2, 1, 0, 1, [9, 0]⟩ (rng_pool_init 4 1)).2.2.1 =
      decide ((⟨2, 1, 0, 1, [9, 0]⟩ : RngPool).count - 2 ≤ occ ⟨2, 1, 0, 1, [9, 0]⟩) :=
  C1_isr_thread_tier_amended 66 ⟨2, 1, 0, 1, [9, 0]⟩ (rng_pool_init 4 1)
    (by decide) (by decide)

/-- Claim C2, counterexample.  An ISR-tier pool holding exactly one byte (90)
and a request for 3 bytes: the call delivers one byte (into index 2 of the
buffer) yet returns 2, the shortfall, not the number of bytes delivered (1). -/
theorem C2_counterexample :
    (entropy_nrf5_get_entropy_isr ⟨4, 1, 0, 1, [90, 0, 0, 0]⟩ [0, 0, 0] 3).2.1 = 2 ∧
    (entropy_nrf5_get_entropy_isr ⟨4, 1, 0, 1, [90, 0, 0, 0]⟩ [0, 0, 0] 3).2.2.1 =
      [0, 0, 90] := by
  decide

/-- Claim C2, amended: a call of get_entropy_isr without the busy-wait flag
returns immediately, delivering the `min (len mod 256) occupancy` oldest
ISR-tier bytes into the caller buffer (written backward from index
`len mod 256 - 1`), and its return value is the shortfall — the number of
requested (truncated) bytes NOT delivered — rather than the number of bytes
delivered. -/
theorem C2_get_entropy_isr_amended (ip : RngPool) (buf : List Nat) (len : Nat)
    (hip : wf ip) (hbuf : len % 256 ≤ buf.length) :
    (entropy_nrf5_get_entropy_isr ip buf len).2.1 =
      len % 256 - min (len % 256) (occ ip) ∧
    (∀ i, i < min (len % 256) (occ ip) →
      (entropy_nrf5_get_entropy_isr ip buf len).2.2.1[len % 256 - 1 - i]? =
        (contents ip)[i]?) ∧
    contents (entropy_nrf5_get_entropy_isr ip buf len).1 =
      (contents ip).drop (min (len % 256) (occ ip)) := by
  have hs := rng_pool_get_spec ip hip (len % 256) buf hbuf
  exact ⟨hs.2.2.2.1, hs.2.2.2.2.2.1, hs.2.2.1⟩

/-- Claim C2, amended, witness: the one-byte-pool instance. -/
theorem C2_get_entropy_isr_amended_witness :
    (entropy_nrf5_get_entropy_isr ⟨4, 1, 0, 1, [90, 0, 0, 0]⟩ [0, 0, 0] 3).2.1 =
      3 % 256 - min (3 % 256) (occ ⟨4, 1, 0, 1, [90, 0, 0, 0]⟩) ∧
    (∀ i, i < min (3 % 256) (occ ⟨4, 1, 0, 1, [90, 0, 0, 0]⟩) →
      (entropy_nrf5_get_entropy_isr ⟨4, 1, 0, 1, [90, 0, 0, 0]⟩ [0, 0, 0] 3).2.2.1[3 % 256 - 1 - i]? =
        (contents ⟨4, 1, 0, 1, [90, 0, 0, 0]⟩)[i]?) ∧
    contents (entropy_nrf5_get_entropy_isr ⟨4, 1, 0, 1, [90, 0, 0, 0]⟩ [0, 0, 0] 3).1 =
      (contents ⟨4, 1, 0, 1, [90, 0, 0, 0]⟩).drop
        (min (3 % 256) (occ ⟨4, 1, 0, 1, [90, 0, 0, 0]⟩)) :=
  C2_get_entropy_isr_amended ⟨4, 1, 0, 1, [90, 0, 0, 0]⟩ [0, 0, 0] 3
    (by decide) (by decide)

/-- Claim C3, counterexample.  Insert 0x11..0x17 (17..23) into a fresh
capacity-8 pool and drain 5 bytes: the destination buffer receives
[0x15, 0x14, 0x13, 0x12, 0x11] — the five oldest bytes in REVERSE order —
not [0x11, 0x12, 0x13, 0x14, 0x15] as the claim asserts, because the copy
loops fill the destination backward from its end. -/
theorem C3_counterexample :
    (rng_pool_get (rng_pool_put_list (rng_pool_init 8 2) [17, 18, 19, 20, 21, 22, 23])
      5 [0, 0, 0, 0, 0]).2.2.1 = [21, 20, 19, 18, 17] ∧
    ([21, 20, 19, 18, 17] : List Nat) ≠ [17, 18, 19, 20, 21] := by
  decide

/-- Claim C3, amended: after any sequence of puts keeping at most
capacity - 1 bytes pending, a get REMOVES bytes from the pool in strict FIFO
order (the oldest `min n pending` bytes leave, the pool keeps the rest in
order), but it DELIVERS them into the caller buffer in reverse: the i-th
oldest drained byte is written to destination index `n - 1 - i`, so draining
5 of 0x11..0x17 yields [0x15, 0x14, 0x13, 0x12, 0x11]. -/
theorem C3_fifo_reversed_amended (c t : Nat) (bs : List Nat) (n : Nat)
    (buf : List Nat) (h2 : 2 ≤ c) (h255 : c ≤ 255) (hbs : bs.length ≤ c - 1)
    (hbuf : n ≤ buf.length) :
    contents (rng_pool_get (rng_pool_put_list (rng_pool_init c t) bs) n buf).1 =
      bs.drop (min n bs.length) ∧
    (rng_pool_get (rng_pool_put_list (rng_pool_init c t) bs) n buf).2.1 =
      n - min n bs.length ∧
    (∀ i, i < min n bs.length →
      (rng_pool_get (rng_pool_put_list (rng_pool_init c t) bs) n buf).2.2.1[n - 1 - i]? =
        bs[i]?) := by
  have hinit := wf_init c t h2 h255
  have hpl := rng_pool_put_list_spec bs (rng_pool_init c t) hinit
    (by rw [occ_init]; show 0 + bs.length ≤ c - 1; omega)
  have hcont : contents (rng_pool_put_list (rng_pool_init c t) bs) = bs := by
    rw [hpl.2.1, contents_init]
    simp
  have hocc : occ (rng_pool_put_list (rng_pool_init c t) bs) = bs.length := by
    unfold occ
    rw [hcont]
  have hs := rng_pool_get_spec _ hpl.1 n buf hbuf
  rw [hocc, hcont] at hs
  exact ⟨hs.2.2.1, hs.2.2.2.1, hs.2.2.2.2.2.1⟩

/-- Claim C3, amended, witness: the 0x11..0x17 scenario drained by 5. -/
theorem C3_fifo_reversed_amended_witness :
    contents (rng_pool_get (rng_pool_put_list (rng_pool_init 8 2)
        [17, 18, 19, 20, 21, 22, 23]) 5 [0, 0, 0, 0, 0]).1 =
      [17, 18, 19, 20, 21, 22, 23].drop (min 5 [17, 18, 19, 20, 21, 22, 23].length) ∧
    (rng_pool_get (rng_pool_put_list (rng_pool_init 8 2)
        [17, 18, 19, 20, 21, 22, 23]) 5 [0, 0, 0, 0, 0]).2.1 =
      5 - min 5 [17, 18, 19, 20, 21, 22, 23].length ∧
    (∀ i, i < min 5 ([17, 18, 19, 20, 21, 22, 23] : List Nat).length →
      (rng_pool_get (rng_pool_put_list (rng_pool_init 8 2)
        [17, 18, 19, 20, 21, 22, 23]) 5 [0, 0, 0, 0, 0]).2.2.1[5 - 1 - i]? =
        ([17, 18, 19, 20, 21, 22, 23] : List Nat)[i]?) :=
  C3_fifo_reversed_amended 8 2 [17, 18, 19, 20, 21, 22, 23] 5 [0, 0, 0, 0, 0]
    (by decide) (by decide) (by decide) (by decide)

set_option maxRecDepth 10000 in
/-- Claim C4 is refuted by the code (code bug): requesting 256 bytes from the
blocking reader, with both pools of capacity 4 and the interrupt handler fed
an unbounded supply of hardware bytes all equal to 7, returns success — yet
the final buffer holds 7 only at positions 0..254 and still holds its initial
0 at position 255.  The outer chunk loop of entropy_nrf5_get_entropy never
advances the destination pointer (lines 272-281 reuse `buf` for every chunk),
so the second chunk overwrites the first and position 255 is never written. -/
theorem C4_blocking_chunk_overwrite :
    (entropy_nrf5_get_entropy 2000 256 (List.replicate 400 7)
        (rng_pool_init 4 1) (rng_pool_init 4 1) (List.replicate 256 0)).map
      (fun r => r.2.2.2) = some (List.replicate 255 7 ++ [0]) := by
  decide

/-- Claim C5: the interrupt handler issues the generation STOP exactly when
both tiers report Full within the same invocation.  In occupancy terms on
well-formed pools: the ISR-tier put (store = true) reports Full
(`-ENOBUFS` or 0) iff the ISR-tier held at least count - 2 bytes; the
thread-tier put of that same invocation then reports Full iff the thread tier
was full (probe case, ISR tier just became full) or held at least
count - 2 bytes (store case, ISR tier was already full).  A spurious
invocation (no byte sampled) never stops.  A single tier reporting Full while
the other still accepts (`-EBUSY`) never triggers STOP. -/
theorem C5_stop_iff_both_full (b : Nat) (ip tp : RngPool)
    (hip : wf ip) (htp : wf tp) :
    ((isr (some b) ip tp).2.2.2 = true ↔
      ((occ ip = ip.count - 1 ∧ tp.count - 2 ≤ occ tp) ∨
        (occ ip = ip.count - 2 ∧ occ tp = tp.count - 1))) ∧
    (isr none ip tp).2.2.2 = false := by
  refine ⟨?_, rfl⟩
  rw [(isr_spec b ip tp hip htp).2.2]
  exact decide_eq_true_iff

/-- Claim C5, witness: both tiers full (each capacity 2 with one pending
byte); STOP fires. -/
theorem C5_stop_iff_both_full_witness :
    ((isr (some 3) ⟨2, 1, 0, 1, [9, 0]⟩ ⟨2, 1, 0, 1, [8, 0]⟩).2.2.2 = true ↔
      ((occ ⟨2, 1, 0, 1, [9, 0]⟩ = (⟨2, 1, 0, 1, [9, 0]⟩ : RngPool).count - 1 ∧
          (⟨2, 1, 0, 1, [8, 0]⟩ : RngPool).count - 2 ≤ occ ⟨2, 1, 0, 1, [8, 0]⟩) ∨
        (occ ⟨2, 1, 0, 1, [9, 0]⟩ = (⟨2, 1, 0, 1, [9, 0]⟩ : RngPool).count - 2 ∧
          occ ⟨2, 1, 0, 1, [8, 0]⟩ = (⟨2, 1, 0, 1, [8, 0]⟩ : RngPool).count - 1))) ∧
    (isr none ⟨2, 1, 0, 1, [9, 0]⟩ ⟨2, 1, 0, 1, [8, 0]⟩).2.2.2 = false :=
  C5_stop_iff_both_full 3 ⟨2, 1, 0, 1, [9, 0]⟩ ⟨2, 1, 0, 1, [8, 0]⟩
    (by decide) (by decide)

/-- Claim C6, counterexample.  Pool of capacity 5, threshold 3, holding 3
bytes.  A first 1-byte get leaves occupancy 2 (strictly below the threshold)
and triggers START — the downward crossing.  With no intervening put, a second
1-byte get (occupancy still below the threshold, same crossing) triggers START
again: START is not invoked exactly once per crossing. -/
theorem C6_counterexample :
    (rng_pool_get ⟨5, 3, 0, 3, [1, 2, 3, 0, 0]⟩ 1 [0]).2.2.2 = true ∧
    occ (rng_pool_get ⟨5, 3, 0, 3, [1, 2, 3, 0, 0]⟩ 1 [0]).1 <
      (⟨5, 3, 0, 3, [1, 2, 3, 0, 0]⟩ : RngPool).threshold ∧
    (rng_pool_get (rng_pool_get ⟨5, 3, 0, 3, [1, 2, 3, 0, 0]⟩ 1 [0]).1 1 [0]).2.2.2 =
      true := by
  decide

/-- Claim C6, amended: every rng_pool_get triggers START exactly when its
post-read occupancy is strictly below the pool threshold (occupancy equal to
the threshold does not trigger); consequently consecutive gets within one
below-threshold crossing each re-trigger START (redundant, idempotent at the
hardware, starts do occur — there is no once-per-crossing deduplication). -/
theorem C6_start_trigger_amended (p : RngPool) (n : Nat) (buf : List Nat)
    (hwf : wf p) :
    (rng_pool_get p n buf).2.2.2 =
      decide (occ (rng_pool_get p n buf).1 < p.threshold) := by
  have hs := rng_pool_get_state p hwf n buf
  rw [hs.2.2, hs.1, occ_advance p hwf _ (Nat.min_le_right _ _)]

/-- Claim C6, amended, witness. -/
theorem C6_start_trigger_amended_witness :
    (rng_pool_get ⟨5, 3, 0, 3, [1, 2, 3, 0, 0]⟩ 1 [0]).2.2.2 =
      decide (occ (rng_pool_get ⟨5, 3, 0, 3, [1, 2, 3, 0, 0]⟩ 1 [0]).1 <
        (⟨5, 3, 0, 3, [1, 2, 3, 0, 0]⟩ : RngPool).threshold) :=
  C6_start_trigger_amended ⟨5, 3, 0, 3, [1, 2, 3, 0, 0]⟩ 1 [0] (by decide)

/-- Claim C7: on a full well-formed pool (occupancy = count - 1), rng_pool_put
returns `-ENOBUFS` and leaves the pool — indices and stored bytes — entirely
unchanged, for either value of the store flag; hence any further sequence of
puts before a get also returns the pool unchanged. -/
theorem C7_put_full_no_mutation (p : RngPool) (st : Bool) (b : Nat)
    (bs : List Nat) (hwf : wf p) (hfull : occ p = p.count - 1) :
    rng_pool_put p st b = (p, PutRet.enobufs) ∧ rng_pool_put_list p bs = p := by
  refine ⟨rng_pool_put_full p hwf hfull st b, ?_⟩
  induction bs with
  | nil => rfl
  | cons x xs ih =>
    show rng_pool_put_list (rng_pool_put p true x).1 xs = p
    rw [show (rng_pool_put p true x).1 = p by rw [rng_pool_put_full p hwf hfull true x]]
    exact ih

/-- Claim C7, witness: a full capacity-3 pool. -/
theorem C7_put_full_no_mutation_witness :
    rng_pool_put ⟨3, 1, 0, 2, [5, 6, 0]⟩ true 7 =
      (⟨3, 1, 0, 2, [5, 6, 0]⟩, PutRet.enobufs) ∧
    rng_pool_put_list ⟨3, 1, 0, 2, [5, 6, 0]⟩ [1, 2, 3] = ⟨3, 1, 0, 2, [5, 6, 0]⟩ :=
  C7_put_full_no_mutation ⟨3, 1, 0, 2, [5, 6, 0]⟩ true 7 [1, 2, 3]
    (by decide) (by decide)

/-- Claim C8: starting from a pool initialized with capacity c (a `u8_t`
value, 2 ≤ c ≤ 255) and threshold t < c, every sequence of put and get
operations keeps both the head and the tail index inside [0, c); the pool is
empty (occupancy 0) iff head = tail, and full (occupancy c - 1) iff advancing
the tail by one modulo c would equal the head. -/
theorem C8_indices_invariant (ops : List Op) (c t : Nat) (h2 : 2 ≤ c)
    (h255 : c ≤ 255) (_ht : t < c) :
    (applyOps (rng_pool_init c t) ops).first < c ∧
    (applyOps (rng_pool_init c t) ops).last < c ∧
    (occ (applyOps (rng_pool_init c t) ops) = 0 ↔
      (applyOps (rng_pool_init c t) ops).first =
        (applyOps (rng_pool_init c t) ops).last) ∧
    (occ (applyOps (rng_pool_init c t) ops) = c - 1 ↔
      ((applyOps (rng_pool_init c t) ops).last + 1) % c =
        (applyOps (rng_pool_init c t) ops).first) := by
  have hinit := wf_init c t h2 h255
  have ha := applyOps_wf ops (rng_pool_init c t) hinit
  have hcnt : (applyOps (rng_pool_init c t) ops).count = c := by
    rw [ha.2.1]
    rfl
  obtain ⟨hw2, hw255, hwfi, hwl, hwr⟩ := ha.1
  have hwf : wf (applyOps (rng_pool_init c t) ops) := ⟨hw2, hw255, hwfi, hwl, hwr⟩
  refine ⟨by omega, by omega, occ_eq_zero_iff _ hwf, ?_⟩
  have hfull := occ_eq_full_iff _ hwf
  rw [hcnt] at hfull
  exact hfull

/-- Claim C8, witness: a concrete operation sequence on a capacity-4 pool. -/
theorem C8_indices_invariant_witness :
    (applyOps (rng_pool_init 4 2)
      [Op.put true 17, Op.put true 18, Op.get 1 [0]]).first < 4 ∧
    (applyOps (rng_pool_init 4 2)
      [Op.put true 17, Op.put true 18, Op.get 1 [0]]).last < 4 ∧
    (occ (applyOps (rng_pool_init 4 2)
        [Op.put true 17, Op.put true 18, Op.get 1 [0]]) = 0 ↔
      (applyOps (rng_pool_init 4 2)
          [Op.put true 17, Op.put true 18, Op.get 1 [0]]).first =
        (applyOps (rng_pool_init 4 2)
          [Op.put true 17, Op.put true 18, Op.get 1 [0]]).last) ∧
    (occ (applyOps (rng_pool_init 4 2)
        [Op.put true 17, Op.put true 18, Op.get 1 [0]]) = 4 - 1 ↔
      ((applyOps (rng_pool_init 4 2)
            [Op.put true 17, Op.put true 18, Op.get 1 [0]]).last + 1) % 4 =
        (applyOps (rng_pool_init 4 2)
          [Op.put true 17, Op.put true 18, Op.get 1 [0]]).first) :=
  C8_indices_invariant [Op.put true 17, Op.put true 18, Op.get 1 [0]] 4 2
    (by decide) (by decide) (by decide)

/-- Claim C9: for a pool of capacity c (2 ≤ c ≤ 255) with any threshold t,
inserting c - 1 bytes into a freshly initialized pool and then draining all
c - 1 bytes leaves the pool empty — head equals tail (though not necessarily
0) and occupancy is 0 — and the next put then behaves exactly as on a freshly
initialized pool: it reports the same status and the pool contents become
exactly the single stored byte in both cases. -/
theorem C9_roundtrip (c t : Nat) (bs : List Nat) (buf : List Nat) (b : Nat)
    (h2 : 2 ≤ c) (h255 : c ≤ 255) (hbs : bs.length = c - 1) :
    ((rng_pool_get (rng_pool_put_list (rng_pool_init c t) bs) (c - 1) buf).1.first =
      (rng_pool_get (rng_pool_put_list (rng_pool_init c t) bs) (c - 1) buf).1.last) ∧
    occ (rng_pool_get (rng_pool_put_list (rng_pool_init c t) bs) (c - 1) buf).1 = 0 ∧
    (rng_pool_put
        (rng_pool_get (rng_pool_put_list (rng_pool_init c t) bs) (c - 1) buf).1
        true b).2 =
      (rng_pool_put (rng_pool_init c t) true b).2 ∧
    contents (rng_pool_put
        (rng_pool_get (rng_pool_put_list (rng_pool_init c t) bs) (c - 1) buf).1
        true b).1 = [b] ∧
    contents (rng_pool_put (rng_pool_init c t) true b).1 = [b] := by
  have hinit := wf_init c t h2 h255
  have hpl := rng_pool_put_list_spec bs (rng_pool_init c t) hinit
    (by rw [occ_init]; show 0 + bs.length ≤ c - 1; omega)
  set p1 := rng_pool_put_list (rng_pool_init c t) bs with hp1
  have hocc1 : occ p1 = c - 1 := by
    unfold occ
    rw [hpl.2.1, contents_init]
    simpa using hbs
  set p2 := (rng_pool_get p1 (c - 1) buf).1 with hp2
  have hwf2 : wf p2 := rng_pool_get_wf p1 hpl.1 _ buf
  have hcnt1 : p1.count = c := by rw [hpl.2.2.1]; rfl
  have hcnt2 : p2.count = c := by
    rw [hp2, (rng_pool_get_frame p1 hpl.1 (c - 1) buf).1, hcnt1]
  have hocc2 : occ p2 = 0 := by
    rw [hp2, (rng_pool_get_state p1 hpl.1 (c - 1) buf).1,
      occ_advance p1 hpl.1 _ (Nat.min_le_right _ _), hocc1]
    omega
  have hempty2 : contents p2 = [] := List.length_eq_zero.mp hocc2
  have hroom2 : occ p2 < p2.count - 1 := by omega
  have hroomi : occ (rng_pool_init c t) < (rng_pool_init c t).count - 1 := by
    rw [occ_init]
    show 0 < c - 1
    omega
  refine ⟨(occ_eq_zero_iff p2 hwf2).mp hocc2, hocc2, ?_, ?_, ?_⟩
  · rw [rng_pool_put_ret p2 hwf2 b, rng_pool_put_ret (rng_pool_init c t) hinit b,
      hocc2, occ_init, hcnt2, show (rng_pool_init c t).count = c from rfl]
  · rw [(rng_pool_put_store p2 hwf2 hroom2 b).2.2.2.2.2.2.1, hempty2]
    rfl
  · rw [(rng_pool_put_store (rng_pool_init c t) hinit hroomi b).2.2.2.2.2.2.1,
      contents_init]
    rfl

/-- Claim C9, witness: capacity 8, threshold 2, bytes 0x11..0x17. -/
theorem C9_roundtrip_witness :
    ((rng_pool_get (rng_pool_put_list (rng_pool_init 8 2)
        [17, 18, 19, 20, 21, 22, 23]) (8 - 1) [0, 0, 0, 0, 0, 0, 0]).1.first =
      (rng_pool_get (rng_pool_put_list (rng_pool_init 8 2)
        [17, 18, 19, 20, 21, 22, 23]) (8 - 1) [0, 0, 0, 0, 0, 0, 0]).1.last) ∧
    occ (rng_pool_get (rng_pool_put_list (rng_pool_init 8 2)
        [17, 18, 19, 20, 21, 22, 23]) (8 - 1) [0, 0, 0, 0, 0, 0, 0]).1 = 0 ∧
    (rng_pool_put (rng_pool_get (rng_pool_put_list (rng_pool_init 8 2)
        [17, 18, 19, 20, 21, 22, 23]) (8 - 1) [0, 0, 0, 0, 0, 0, 0]).1 true 99).2 =
      (rng_pool_put (rng_pool_init 8 2) true 99).2 ∧
    contents (rng_pool_put (rng_pool_get (rng_pool_put_list (rng_pool_init 8 2)
        [17, 18, 19, 20, 21, 22, 23]) (8 - 1) [0, 0, 0, 0, 0, 0, 0]).1 true 99).1 =
      [99] ∧
    contents (rng_pool_put (rng_pool_init 8 2) true 99).1 = [99] :=
  C9_roundtrip 8 2 [17, 18, 19, 20, 21, 22, 23] [0, 0, 0, 0, 0, 0, 0] 99
    (by decide) (by decide) (by decide)

/-- Claim C10: in the non-busy-wait path of get_entropy_isr the 16-bit length
is truncated to its low 8 bits before the ISR-tier pool is read.  Hence no
destination index at or above 255 is ever written (at most 255 bytes per
call), and when the length is an exact multiple of 256 the call reads nothing:
the pool is unchanged, the buffer is unchanged, and the return value is 0 —
reported as a fully satisfied request. -/
theorem C10_len_truncation (ip : RngPool) (buf : List Nat) (len : Nat)
    (hip : wf ip) (hbuf : len % 256 ≤ buf.length) :
    (∀ j, 255 < j →
      (entropy_nrf5_get_entropy_isr ip buf len).2.2.1[j]? = buf[j]?) ∧
    (len % 256 = 0 →
      (entropy_nrf5_get_entropy_isr ip buf len).1 = ip ∧
      (entropy_nrf5_get_entropy_isr ip buf len).2.1 = 0 ∧
      (entropy_nrf5_get_entropy_isr ip buf len).2.2.1 = buf) := by
  unfold entropy_nrf5_get_entropy_isr
  have hs := rng_pool_get_spec ip hip (len % 256) buf hbuf
  have hlt : len % 256 ≤ 255 := by omega
  constructor
  · intro j hj
    exact hs.2.2.2.2.2.2.1 j (Or.inr (by omega))
  · intro h0
    rw [h0] at hs ⊢
    refine ⟨?_, ?_, ?_⟩
    · rw [hs.1]
      have hidx : (ip.first + min 0 (occ ip)) % ip.count = ip.first := by
        rw [Nat.zero_min, Nat.add_zero, Nat.mod_eq_of_lt hip.2.2.1]
      rw [hidx]
    · rw [hs.2.2.2.1]
      omega
    · apply List.ext_getElem?
      intro j
      exact hs.2.2.2.2.2.2.1 j (Or.inr (Nat.zero_le j))

/-- Claim C10, witness: a length of exactly 256 on a one-byte pool. -/
theorem C10_len_truncation_witness :
    ((∀ j, 255 < j →
      (entropy_nrf5_get_entropy_isr ⟨4, 1, 0, 1, [90, 0, 0, 0]⟩ [0, 0, 0] 256).2.2.1[j]? =
        ([0, 0, 0] : List Nat)[j]?) ∧
    (256 % 256 = 0 →
      (entropy_nrf5_get_entropy_isr ⟨4, 1, 0, 1, [90, 0, 0, 0]⟩ [0, 0, 0] 256).1 =
        ⟨4, 1, 0, 1, [90, 0, 0, 0]⟩ ∧
      (entropy_nrf5_get_entropy_isr ⟨4, 1, 0, 1, [90, 0, 0, 0]⟩ [0, 0, 0] 256).2.1 = 0 ∧
      (entropy_nrf5_get_entropy_isr ⟨4, 1, 0, 1, [90, 0, 0, 0]⟩ [0, 0, 0] 256).2.2.1 =
        [0, 0, 0])) :=
  C10_len_truncation ⟨4, 1, 0, 1, [90, 0, 0, 0]⟩ [0, 0, 0] 256
    (by decide) (by decide)
